import Mathlib

/-!
Verification development for the mdink markdown viewer.

Shallow embedding of the program's data model and operations:
strings are `List Char` (all slicing in the source happens at character
boundaries, and per-byte style assignment is constant within each
character, so the character-level model is faithful); `ratatui::Style`
is a record of optional colors (encoded as `Nat`) and a modifier
bitmask; the `Vec` stacks of the parser are Lean lists.
-/

/-- Model of `ratatui::style::Style` as used by mdink: an optional
foreground color, an optional background color (colors encoded as `Nat`:
named colors are small codes, `Color::Indexed(n)` is `1000 + n`), and an
additive modifier bitmask.  `patch` follows ratatui's override
semantics: set fields of the argument win, modifier masks are or-ed. -/
structure Style where
  fg : Option Nat
  bg : Option Nat
  addModifier : Nat
  deriving DecidableEq

/-- The default (unset) style, `Style::default()`. -/
def Style.default : Style := ⟨none, none, 0⟩

/-- Modifier bit for `Modifier::BOLD`. -/
def modBOLD : Nat := 1

/-- Modifier bit for `Modifier::ITALIC`. -/
def modITALIC : Nat := 2

/-- Modifier bit for `Modifier::CROSSED_OUT`. -/
def modCROSSED : Nat := 4

/-- Modifier bit for `Modifier::UNDERLINED`. -/
def modUNDERLINED : Nat := 8

/-- Modifier bit for `Modifier::DIM`. -/
def modDIM : Nat := 16

/-- `ratatui Style::patch`: fields set in `s` override `a`; the additive
modifier masks are merged. -/
def Style.patch (a s : Style) : Style :=
  ⟨(match s.fg with | some c => some c | none => a.fg),
   (match s.bg with | some c => some c | none => a.bg),
   Nat.lor a.addModifier s.addModifier⟩

/-- A text span with associated style information (`parser::StyledSpan`). -/
structure StyledSpan where
  text : List Char
  style : Style
  deriving DecidableEq

/-- A styled display line: a list of spans, each a run of characters
sharing one style (`ratatui::text::Line`). -/
abbrev StyledLine := List (List Char × Style)

/- ──────────────────────────────────────────────────────────────────
   Application state (src/app.rs)
   ────────────────────────────────────────────────────────────────── -/

/-- Model of `usize::MAX` (64-bit). -/
def U64MAX : Nat := 18446744073709551615

/-- Model of `usize::saturating_add`. -/
def usatAdd (a b : Nat) : Nat := min (a + b) U64MAX

/-- Model of `crossterm::event::KeyCode` restricted to the variants
`App::handle_key` inspects; every other key is `otherKey`. -/
inductive KeyCode where
  | char (c : Char)
  | down
  | up
  | pageDown
  | pageUp
  | home
  | endKey
  | esc
  | otherKey
  deriving DecidableEq

/-- Model of `crossterm::event::KeyEvent`: the key code plus whether the
CONTROL modifier is held (the only modifier `handle_key` inspects). -/
structure KeyEvent where
  code : KeyCode
  ctrl : Bool
  deriving DecidableEq

/-- Model of `app::App` restricted to the fields the scroll operations
read and write: the document is represented by its `total_height`. -/
structure App where
  total_height : Nat
  scroll_offset : Nat
  viewport_height : Nat
  quit : Bool
  deriving DecidableEq

/-- `App::max_scroll`: `total_height.saturating_sub(viewport_height)`
(Lean's `Nat` subtraction is saturating). -/
def App.max_scroll (a : App) : Nat := a.total_height - a.viewport_height

/-- `App::scroll_down`: `scroll_offset.saturating_add(n).min(max_scroll)`. -/
def App.scroll_down (a : App) (n : Nat) : App :=
  { a with scroll_offset := min (usatAdd a.scroll_offset n) a.max_scroll }

/-- `App::scroll_up`: `scroll_offset.saturating_sub(n)`. -/
def App.scroll_up (a : App) (n : Nat) : App :=
  { a with scroll_offset := a.scroll_offset - n }

/-- `App::scroll_to_top`. -/
def App.scroll_to_top (a : App) : App := { a with scroll_offset := 0 }

/-- `App::scroll_to_bottom`. -/
def App.scroll_to_bottom (a : App) : App :=
  { a with scroll_offset := a.max_scroll }

/-- `App::handle_key`: dispatch from `src/app.rs`.  A `Char` pattern in
the Rust match ignores modifiers except for the `Ctrl+C` guard arm. -/
def App.handle_key (a : App) (k : KeyEvent) : App :=
  match k.code with
  | .char c =>
    if c = 'j' then a.scroll_down 1
    else if c = 'k' then a.scroll_up 1
    else if c = 'd' then a.scroll_down (max (a.viewport_height / 2) 1)
    else if c = 'u' then a.scroll_up (max (a.viewport_height / 2) 1)
    else if c = 'g' then a.scroll_to_top
    else if c = 'G' then a.scroll_to_bottom
    else if c = 'q' then { a with quit := true }
    else if c = 'c' ∧ k.ctrl then { a with quit := true }
    else a
  | .down => a.scroll_down 1
  | .up => a.scroll_up 1
  | .pageDown => a.scroll_down (max (a.viewport_height / 2) 1)
  | .pageUp => a.scroll_up (max (a.viewport_height / 2) 1)
  | .home => a.scroll_to_top
  | .endKey => a.scroll_to_bottom
  | .esc => { a with quit := true }
  | .otherKey => a

/-- The scroll invariant: the offset never exceeds the maximum scroll
position. -/
def App.scrollInv (a : App) : Prop := a.scroll_offset ≤ a.max_scroll

/- ──────────────────────────────────────────────────────────────────
   Layout engine (src/layout.rs)
   ────────────────────────────────────────────────────────────────── -/

/-- Whitespace predicate used by the line-breaking model and by the
word decomposition (Unicode whitespace). -/
def isSp (c : Char) : Bool := c.isWhitespace

/-- The whitespace-delimited words of a character list, in order.
When the head is not whitespace, the first word is the head plus the
leading non-whitespace run of the tail. -/
def words : List Char → List (List Char)
  | [] => []
  | c :: cs =>
    if isSp c then words cs
    else (c :: cs.takeWhile (fun d => ¬ isSp d)) ::
      words (cs.dropWhile (fun d => ¬ isSp d))
termination_by s => s.length
decreasing_by
· simp
· have hle : ∀ (l : List Char),
      (l.dropWhile (fun d => decide ¬ isSp d = true)).length ≤ l.length := by
    intro l
    induction l with
    | nil => simp
    | cons a l ih =>
      simp only [List.dropWhile_cons]
      split
      · simp only [List.length_cons]; omega
      · simp
  have := hle cs
  simp only [List.length_cons]
  omega

/-- Length of the leading run of non-whitespace characters. -/
def firstWordLen (t : List Char) : Nat :=
  (t.takeWhile (fun c => ¬ isSp c)).length

/-- Length of the whitespace gap of `t` starting at position `n`. -/
def gapLen (t : List Char) (n : Nat) : Nat :=
  ((t.drop n).takeWhile isSp).length

/-- Length of the word of `t` following the whitespace gap at `n`. -/
def nextWordLen (t : List Char) (n : Nat) : Nat :=
  (((t.drop n).drop (gapLen t n)).takeWhile (fun c => ¬ isSp c)).length

/-- Modelled from the spec: the greedy fill step of the external
line-breaking collaborator (`textwrap::wrap`).  Starting from a line
already holding `n` characters (ending at a word boundary), keep
appending the following whitespace gap plus the next word while the
total stays within `width`. -/
def extendLine (t : List Char) (width : Nat) (n : Nat) : Nat :=
  if 0 < nextWordLen t n ∧ n + gapLen t n + nextWordLen t n ≤ width then
    extendLine t width (n + gapLen t n + nextWordLen t n)
  else n
termination_by width - n
decreasing_by omega

/-- Modelled from the spec: the number of characters of `t` (which
starts with a non-whitespace character) placed on the current line.
If even the first word exceeds the width the word is broken at the
width (`break_words`, spec §4.2: a single word longer than the width
is still broken); otherwise the line is greedily extended word by
word. -/
def lineLen (width : Nat) (t : List Char) : Nat :=
  let w1 := firstWordLen t
  if width < w1 then width else extendLine t width w1

/-- Modelled from the spec: the external width-aware line-breaking
collaborator (`textwrap::wrap` with Unicode break properties), as a
greedy word wrap over the plain buffer.  Each returned line is a
literal slice of the input (interior whitespace preserved); whitespace
between lines is consumed; character display widths are modelled as 1
column each; the width is clamped to a minimum of one (spec §4.2).
The `max 1` guard on the step is required for termination and never
binds, since a line always holds at least one character. -/
def greedyWrap (width : Nat) (s : List Char) : List (List Char) :=
  let W := max 1 width
  let t := s.dropWhile isSp
  if h : t = [] then []
  else
    let n := max 1 (lineLen W t)
    t.take n :: greedyWrap width (t.drop n)
termination_by s.length
decreasing_by
  have hle : ∀ (l : List Char), (l.dropWhile isSp).length ≤ l.length := by
    intro l
    induction l with
    | nil => simp
    | cons a l ih =>
      simp only [List.dropWhile_cons]
      split
      · simp only [List.length_cons]; omega
      · simp
  have h1 : (s.dropWhile isSp).length ≤ s.length := hle s
  have h2 : 0 < (s.dropWhile isSp).length := by
    cases hd : s.dropWhile isSp with
    | nil => exact absurd hd h
    | cons a l => simp [hd]
  simp only [List.length_drop]
  omega

/-- The monotonic cursor advance of `wrap_styled_spans` (layout.rs
lines 135-146): starting from `cursor`, move forward one character at
a time until the remaining buffer starts with `w` (or the end of the
buffer is reached). -/
def advance (plain w : List Char) (cursor : Nat) : Nat :=
  if h : cursor < plain.length then
    if w.isPrefixOf (plain.drop cursor) then cursor
    else advance plain w (cursor + 1)
  else cursor
termination_by plain.length - cursor
decreasing_by omega

/-- Grouping step of `build_spans_for_range`: consecutive characters
sharing an identical style are grouped into one run; a style change
starts a new run. -/
def groupRuns : List (Char × Style) → StyledLine
  | [] => []
  | (c, s) :: rest =>
    match groupRuns rest with
    | [] => [([c], s)]
    | (cs, s2) :: tail =>
      if s2 = s then (c :: cs, s) :: tail else ([c], s) :: (cs, s2) :: tail

/-- `build_spans_for_range` (layout.rs lines 167-201): styled spans for
the range `[start, stop)` of the plain buffer, grouping consecutive
characters with the same resolved style into one run.  Returns no
spans when the range is empty or starts past the end of the buffer. -/
def build_spans_for_range (plain : List Char) (styles : List Style)
    (start stop : Nat) : StyledLine :=
  if stop ≤ start ∨ plain.length ≤ start then []
  else groupRuns (((plain.zip styles).drop start).take (stop - start))

/-- The per-line mapping loop of `wrap_styled_spans` (layout.rs lines
128-157): for each wrapped line, advance the forward-only cursor to
the line's start, slice `[cursor, cursor + len)` clamped to the buffer
length, emit its styled runs, and continue from the line's end. -/
def wrapMapGo (plain : List Char) (styles : List Style) :
    List (List Char) → Nat → List StyledLine
  | [], _ => []
  | w :: ws, cursor =>
    let c := advance plain w cursor
    let stop := min (c + w.length) plain.length
    build_spans_for_range plain styles c stop :: wrapMapGo plain styles ws stop

/-- The parallel per-character style table of `wrap_styled_spans` step 1
(one style per character; in the source one per byte, constant within
each character). -/
def byteStyles (spans : List StyledSpan) : List Style :=
  (spans.map (fun sp => List.replicate sp.text.length sp.style)).flatten

/-- The concatenated plain text of a span list. -/
def concatText (spans : List StyledSpan) : List Char :=
  (spans.map (fun sp => sp.text)).flatten

/-- The hard-break-free core of `wrap_styled_spans`: build the plain
buffer and style table, run the line-breaking collaborator, and map
each produced line back through the monotonic cursor. -/
def wrapCore (spans : List StyledSpan) (width : Nat) : List StyledLine :=
  let plain := concatText spans
  if plain = [] then []
  else wrapMapGo plain (byteStyles spans) (greedyWrap width plain) 0

/-- Rust `str::split('\n')`: the segments of `s` between newline
characters; always at least one segment, trailing empty segment
included. -/
def splitOnNl : List Char → List (List Char)
  | [] => [[]]
  | c :: cs =>
    if c = '\n' then [] :: splitOnNl cs
    else
      match splitOnNl cs with
      | [] => [[c]]
      | g :: gs => (c :: g) :: gs

/-- Part-processing loop of `wrap_with_hard_breaks` (layout.rs lines
210-221) for one span whose text was split at newlines: non-empty
parts are appended to the current group; after every part except the
last, the current group (possibly empty) is emitted.  Returns the
emitted groups and the new current group. -/
def splitParts (st : Style) (acc : List StyledSpan) :
    List (List Char) → List (List StyledSpan) × List StyledSpan
  | [] => ([], acc)
  | [p] => ([], if p = [] then acc else acc ++ [⟨p, st⟩])
  | p :: ps =>
    let acc1 := if p = [] then acc else acc ++ [⟨p, st⟩]
    let r := splitParts st [] ps
    (acc1 :: r.1, r.2)

/-- Group-splitting loop of `wrap_with_hard_breaks` (layout.rs lines
206-232): spans are accumulated into the current group; spans
containing newlines are split and close groups at each newline; the
final group is kept only when non-empty. -/
def splitGroupsGo (acc : List StyledSpan) : List StyledSpan → List (List StyledSpan)
  | [] => if acc = [] then [] else [acc]
  | sp :: rest =>
    if '\n' ∈ sp.text then
      let r := splitParts sp.style acc (splitOnNl sp.text)
      r.1 ++ splitGroupsGo r.2 rest
    else splitGroupsGo (acc ++ [sp]) rest

/-- The groups of spans between hard breaks (`wrap_with_hard_breaks`,
first half). -/
def splitGroups (spans : List StyledSpan) : List (List StyledSpan) :=
  splitGroupsGo [] spans

/-- The per-group emission of `wrap_with_hard_breaks` (layout.rs lines
235-242): wrap the group; a group that wraps to nothing contributes
one blank styled line (a line with zero spans). -/
def wrapOrBlank (g : List StyledSpan) (width : Nat) : List StyledLine :=
  let wr := wrapCore g width
  if wr = [] then [([] : StyledLine)] else wr

/-- `wrap_with_hard_breaks` (layout.rs lines 205-245): split the spans
into groups at hard breaks and wrap each group independently.  The
recursive call to `wrap_styled_spans` in the source is on
newline-free groups, for which it coincides with `wrapCore` (the
empty-group case agrees as well, since both return no lines on empty
input). -/
def wrap_with_hard_breaks (spans : List StyledSpan) (width : Nat) : List StyledLine :=
  ((splitGroups spans).map (fun g => wrapOrBlank g width)).flatten

/-- `wrap_styled_spans` (layout.rs lines 99-160): empty span list yields
no lines; spans containing a hard break are split into groups first;
otherwise the core wrap runs. -/
def wrap_styled_spans (spans : List StyledSpan) (width : Nat) : List StyledLine :=
  if spans = [] then []
  else if spans.any (fun sp => '\n' ∈ sp.text) then wrap_with_hard_breaks spans width
  else wrapCore spans width

/-- The plain text of one styled output line. -/
def lineText (l : StyledLine) : List Char := (l.map (fun p => p.1)).flatten

/-- Concatenate line texts treating the break between consecutive lines
as a single space (the reading used by the word-preservation
property). -/
def joinLines : List (List Char) → List Char
  | [] => []
  | [l] => l
  | l :: ls => l ++ ' ' :: joinLines ls

/-- The full text reproduced by a wrap, line breaks read as single
spaces. -/
def outText (spans : List StyledSpan) (width : Nat) : List Char :=
  joinLines ((wrap_styled_spans spans width).map lineText)

/-- Concatenate segments with a newline between consecutive segments
(the inverse of `splitOnNl`). -/
def joinNl : List (List Char) → List Char
  | [] => []
  | [p] => p
  | p :: ps => p ++ '\n' :: joinNl ps

/-- The lines `ws` occur in `plain` as pairwise non-overlapping
substrings, in order, all at or after position `c`.  This is the
situation the forward-only cursor of `wrap_styled_spans` relies on:
the line-breaking collaborator returns ordered disjoint slices of the
buffer. -/
def FindableFrom (plain : List Char) : Nat → List (List Char) → Prop
  | _, [] => True
  | c, w :: ws => ∃ p, c ≤ p ∧ p + w.length ≤ plain.length ∧
      w.isPrefixOf (plain.drop p) ∧ FindableFrom plain (p + w.length) ws

/- ──────────────────────────────────────────────────────────────────
   Block IR and document flattening (src/parser.rs types, src/layout.rs)
   ────────────────────────────────────────────────────────────────── -/

/-- `parser::RenderedBlock`: the block-level IR. -/
inductive RenderedBlock where
  | Heading (level : Nat) (content : List StyledSpan)
  | Paragraph (content : List StyledSpan)
  | CodeBlock (language : List Char) (highlighted_lines : List StyledLine)
  | ThematicBreak
  | Spacer (lines : Nat)
  deriving DecidableEq

/-- `layout::DocumentLine`.  The `Code` variant is absent from
`src/layout.rs` as given but is referenced by the repository's
renderer and layout tests; it is included here as the spec (§3)
describes it. -/
inductive DocumentLine where
  | Text (l : StyledLine)
  | Code (l : StyledLine)
  | Empty
  | Rule
  deriving DecidableEq

/-- `layout::PreRenderedDocument`. -/
structure PreRenderedDocument where
  lines : List DocumentLine
  total_height : Nat
  deriving DecidableEq

/-- The lines contributed by one block (the per-block match of
`flatten`).  The `CodeBlock` arm is modelled from the spec (§4.2 and
§8, confirmed by the repository's layout tests): one label line
showing the language name when the language is non-empty, then every
pre-highlighted line verbatim as a `Code` line, never wrapped. -/
def flattenBlock (W : Nat) : RenderedBlock → List DocumentLine
  | .Heading _ content =>
    let wrapped := wrap_styled_spans content W
    if wrapped = [] then [.Empty] else wrapped.map .Text
  | .Paragraph content =>
    let wrapped := wrap_styled_spans content W
    if wrapped = [] then [.Empty] else wrapped.map .Text
  | .CodeBlock language hl =>
    (if language = [] then [] else [.Code [(language, Style.default)]]) ++ hl.map .Code
  | .ThematicBreak => [.Rule]
  | .Spacer n => List.replicate n .Empty

/-- The flattening loop of `flatten`: one `Empty` spacing line between
adjacent blocks (not before the first). -/
def flattenLines (W : Nat) : List RenderedBlock → List DocumentLine
  | [] => []
  | [b] => flattenBlock W b
  | b :: bs => flattenBlock W b ++ .Empty :: flattenLines W bs

/-- `layout::flatten`: width is clamped to a minimum of one, blocks are
flattened in order with inter-block spacing, and `total_height` is set
to the number of lines. -/
def flatten (blocks : List RenderedBlock) (width : Nat) : PreRenderedDocument :=
  let lines := flattenLines (max width 1) blocks
  ⟨lines, lines.length⟩

/- ──────────────────────────────────────────────────────────────────
   Syntax highlighting bridge (src/highlight.rs)
   ────────────────────────────────────────────────────────────────── -/

/-- Abstract model of the syntect collaborator: the set of language
tokens the syntax set resolves, the set of available theme names, and
a per-line tokenizer (`HighlightLines::highlight_line`), taking the
resolved syntax (`none` is the plain-text syntax) and the line
(ending included) and returning styled ranges or an error.  Theme
data and the comment-color resolution only influence the styles the
tokenizer returns, so they are folded into it. -/
structure SynEnv where
  knownLangs : List (List Char)
  themes : List (List Char)
  tokenize : Option (List Char) → List Char → Except Unit (List (List Char × Style))

/-- The fixed default theme name `base16-ocean.dark`. -/
def defaultTheme : List Char := "base16-ocean.dark".toList

/-- The highlighting byte cap `MAX_HIGHLIGHT_BYTES` (512 KiB). -/
def MAX_HIGHLIGHT_BYTES : Nat := 524288

/-- Rust `str::lines` on the character list model: segments split at
newlines, no trailing empty segment, a trailing carriage return
stripped from each segment. -/
def linesOf (s : List Char) : List (List Char) :=
  if s = [] then []
  else
    let segs := splitOnNl s
    let segs := if segs.getLast? = some [] then segs.dropLast else segs
    segs.map (fun l => if l.getLast? = some '\r' then l.dropLast else l)

/-- `syntect::util::LinesWithEndings`: the lines of `s` with their
line endings included (the final segment, if not newline-terminated,
is kept). -/
def linesWE : List Char → List (List Char)
  | [] => []
  | c :: cs =>
    if c = '\n' then ['\n'] :: linesWE cs
    else
      match linesWE cs with
      | [] => [[c]]
      | l :: ls => (c :: l) :: ls

/-- Rust `trim_end_matches(['\r', '\n'])`: strip all trailing carriage
returns and newlines. -/
def trimEndNl (l : List Char) : List Char :=
  (l.reverse.dropWhile (fun c => c = '\r' ∨ c = '\n')).reverse

/-- An unstyled line holding the given text (`Line::from(Span::raw(l))`). -/
def plainLine (l : List Char) : StyledLine := [(l, Style.default)]

/-- `Highlighter::highlight_code` (src/highlight.rs lines 46-115) over
the abstract syntect model: inputs over the byte cap are returned as
plain unstyled lines without invoking the tokenizer; an empty or
unknown language falls back to the plain-text syntax; a missing theme
falls back to the default theme, and if that is missing too the code
is returned as plain unstyled lines; otherwise each line (with
ending) is tokenized, a failing line degrading to a single unstyled
span, and trailing line-ending characters are stripped from every
emitted span, empty spans dropped. -/
def highlight_code (env : SynEnv) (code language themeName : List Char) :
    List StyledLine :=
  if MAX_HIGHLIGHT_BYTES < code.length then (linesOf code).map plainLine
  else
    let syn : Option (List Char) :=
      if language = [] then none
      else if language ∈ env.knownLangs then some language else none
    if themeName ∈ env.themes ∨ defaultTheme ∈ env.themes then
      (linesWE code).map (fun line =>
        match env.tokenize syn line with
        | Except.error _ => [(trimEndNl line, Style.default)]
        | Except.ok ranges =>
          (ranges.map (fun p => (trimEndNl p.1, p.2))).filter (fun p => p.1 ≠ []))
    else (linesOf code).map plainLine

/- ──────────────────────────────────────────────────────────────────
   Markdown block parser (src/parser.rs)
   ────────────────────────────────────────────────────────────────── -/

/-- `pulldown_cmark::CodeBlockKind`: a fenced block carries its raw
info string, an indented block carries nothing. -/
inductive CodeKind where
  | fenced (info : List Char)
  | indented
  deriving DecidableEq

/-- The pulldown-cmark event stream as dispatched by `parse`.  Heading
start events carry the level already converted to a number (the
source's `heading_level_to_u8`); structural tags the parser does not
handle explicitly (lists, items, tables, block quotes, ...) are
`startOther`/`endOther` with a tag discriminant; non-structural events
the parser ignores (task-list markers, footnote references, inline
and block HTML, math) are `otherInline`. -/
inductive Ev where
  | startHeading (level : Nat)
  | startParagraph
  | startLink
  | startImage
  | startEmphasis
  | startStrong
  | startStrike
  | startCodeBlock (kind : CodeKind)
  | startOther (tag : Nat)
  | endHeading
  | endParagraph
  | endLink
  | endImage
  | endEmphasis
  | endStrong
  | endStrike
  | endCodeBlock
  | endOther (tag : Nat)
  | text (s : List Char)
  | code (s : List Char)
  | softBreak
  | hardBreak
  | rule
  | otherInline
  deriving DecidableEq

/-- Whether an event is `Event::Start(_)`. -/
def evIsStart : Ev → Bool
  | .startHeading _ | .startParagraph | .startLink | .startImage
  | .startEmphasis | .startStrong | .startStrike
  | .startCodeBlock _ | .startOther _ => true
  | _ => false

/-- Whether an event is `Event::End(_)`. -/
def evIsEnd : Ev → Bool
  | .endHeading | .endParagraph | .endLink | .endImage
  | .endEmphasis | .endStrong | .endStrike
  | .endCodeBlock | .endOther _ => true
  | _ => false

/-- `parser::ParserState`. -/
inductive ParserState where
  | TopLevel
  | InHeading (level : Nat)
  | InParagraph
  | InCodeBlock (language : List Char) (buffer : List Char)
  | Skipping (depth : Nat)
  deriving DecidableEq

/-- `default_heading_style` (parser.rs lines 67-80).  Colors:
LightCyan 14, Green 10, Yellow 11, White 15. -/
def default_heading_style (level : Nat) : Style :=
  let color : Nat :=
    if level = 1 then 14 else if level = 2 then 10
    else if level = 3 then 11 else 15
  let modifier : Nat :=
    if 1 ≤ level ∧ level ≤ 3 then modBOLD else Nat.lor modBOLD modITALIC
  ⟨some color, none, modifier⟩

/-- `default_code_style` (parser.rs lines 85-90): indexed background
236, indexed foreground 252, bold and italic. -/
def default_code_style : Style :=
  ⟨some 1252, some 1236, Nat.lor modBOLD modITALIC⟩

/-- `effective_style` (parser.rs lines 94-98): fold the style stack
base-to-top with `patch` starting from the default style.  The stack
is stored head-as-top, so the base-to-top fold is a `foldr`. -/
def effective_style (styleStack : List Style) : Style :=
  styleStack.foldr (fun s acc => acc.patch s) Style.default

/-- The language token recorded for a fenced code block (parser.rs
lines 311-322): the first whitespace-delimited token of the info
string, truncated at the first comma. -/
def langFromInfo (info : List Char) : List Char :=
  (((info.dropWhile (fun c => c.isWhitespace)).takeWhile
    (fun c => ¬ c.isWhitespace)).takeWhile (fun c => c ≠ ','))

/-- The language recorded at `Start(CodeBlock)`: fenced blocks use the
normalized info token, indented blocks the empty string. -/
def langOfKind : CodeKind → List Char
  | .fenced info => langFromInfo info
  | .indented => []

/-- The full parser configuration: emitted blocks, the state stack and
style stack (both head-as-top, mirroring the `Vec` end), the span
accumulator, and whether the loop was aborted by the state-stack
underflow check. -/
structure PState where
  blocks : List RenderedBlock
  stateStack : List ParserState
  styleStack : List Style
  currentSpans : List StyledSpan
  halted : Bool
  deriving DecidableEq

/-- The initial parser configuration (parse, lines 122-125). -/
def initPState : PState := ⟨[], [.TopLevel], [], [], false⟩

/-- One iteration of the event loop of `parse` (parser.rs lines
127-349): the code-block accumulation branch is checked first, then
the stack-underflow guard, then the `Skipping` depth bookkeeping,
then the normal dispatch. -/
def parseStep (env : SynEnv) (ps : PState) (ev : Ev) : PState :=
  if ps.halted then ps else
  match ps.stateStack with
  | .InCodeBlock language buffer :: rest =>
    match ev with
    | .text s => { ps with stateStack := .InCodeBlock language (buffer ++ s) :: rest }
    | .endCodeBlock =>
      { ps with
        stateStack := rest
        blocks := ps.blocks ++
          [.CodeBlock language (highlight_code env buffer language defaultTheme)] }
    | _ => ps
  | [] => { ps with halted := true }
  | .Skipping depth :: rest =>
    if evIsStart ev then { ps with stateStack := .Skipping (depth + 1) :: rest }
    else if evIsEnd ev then
      if depth = 0 then { ps with stateStack := rest }
      else { ps with stateStack := .Skipping (depth - 1) :: rest }
    else ps
  | top :: rest =>
    match ev with
    | .startHeading lvl =>
      { ps with
        styleStack := default_heading_style lvl :: ps.styleStack
        currentSpans := []
        stateStack := .InHeading lvl :: top :: rest }
    | .startParagraph =>
      { ps with currentSpans := [], stateStack := .InParagraph :: top :: rest }
    | .endHeading =>
      let level : Nat := match top with | .InHeading lvl => lvl | _ => 1
      let styleStack' : List Style :=
        match top with | .InHeading _ => ps.styleStack.tail | _ => ps.styleStack
      { ps with
        stateStack := rest
        styleStack := styleStack'
        blocks := ps.blocks ++ [.Heading level ps.currentSpans]
        currentSpans := [] }
    | .endParagraph =>
      { ps with
        stateStack := rest
        blocks := ps.blocks ++ [.Paragraph ps.currentSpans]
        currentSpans := [] }
    | .startLink =>
      { ps with styleStack := (⟨none, none, modITALIC⟩ : Style) :: ps.styleStack }
    | .endLink => { ps with styleStack := ps.styleStack.tail }
    | .startImage => ps
    | .endImage => ps
    | .startEmphasis =>
      { ps with styleStack := (⟨none, none, modITALIC⟩ : Style) :: ps.styleStack }
    | .startStrong =>
      { ps with styleStack := (⟨none, none, modBOLD⟩ : Style) :: ps.styleStack }
    | .startStrike =>
      { ps with styleStack := (⟨none, none, modCROSSED⟩ : Style) :: ps.styleStack }
    | .endEmphasis => { ps with styleStack := ps.styleStack.tail }
    | .endStrong => { ps with styleStack := ps.styleStack.tail }
    | .endStrike => { ps with styleStack := ps.styleStack.tail }
    | .text s =>
      { ps with currentSpans :=
          ps.currentSpans ++ [⟨s, effective_style ps.styleStack⟩] }
    | .code s =>
      { ps with currentSpans := ps.currentSpans ++ [⟨s, default_code_style⟩] }
    | .softBreak =>
      { ps with currentSpans :=
          ps.currentSpans ++ [⟨[' '], effective_style ps.styleStack⟩] }
    | .hardBreak =>
      { ps with currentSpans :=
          ps.currentSpans ++ [⟨['\n'], effective_style ps.styleStack⟩] }
    | .rule => { ps with blocks := ps.blocks ++ [.ThematicBreak] }
    | .startCodeBlock kind =>
      { ps with stateStack := .InCodeBlock (langOfKind kind) [] :: top :: rest }
    | .startOther _ =>
      { ps with stateStack := .Skipping 0 :: top :: rest }
    | .endCodeBlock => ps
    | .endOther _ => ps
    | .otherInline => ps

/-- `parser::parse` over an event stream: fold the step over the
events starting from the initial configuration and return the emitted
blocks. -/
def parse (env : SynEnv) (events : List Ev) : List RenderedBlock :=
  (events.foldl (parseStep env) initPState).blocks

/-- A concrete syntect environment with no known languages, no themes,
and an always-failing tokenizer (used to instantiate theorems at
concrete inputs). -/
def emptySynEnv : SynEnv := ⟨[], [], fun _ _ => Except.error ()⟩

/-- A concrete syntect environment whose theme set contains exactly the
default theme. -/
def defaultThemeSynEnv : SynEnv := ⟨[], [defaultTheme], fun _ _ => Except.error ()⟩

/- ──────────────────────────────────────────────────────────────────
   Theorems
   ────────────────────────────────────────────────────────────────── -/

/-- C4: for every block list and width, the document produced by
`flatten` satisfies `total_height = lines.length`, and the empty block
list yields `total_height = 0`. -/
theorem c4_flatten_total_height (blocks : List RenderedBlock) (width : Nat) :
    (flatten blocks width).total_height = (flatten blocks width).lines.length ∧
    (flatten [] width).total_height = 0 :=
  ⟨rfl, rfl⟩

/-- C2: for every `CodeBlock` block and every width, `flatten` emits
the pre-highlighted lines unchanged, each as exactly one `Code` line
(independent of the width), preceded by exactly one label line showing
the language name precisely when the language is non-empty. -/
theorem c2_code_block_unwrapped (language : List Char)
    (hl : List StyledLine) (width : Nat) :
    (flatten [.CodeBlock language hl] width).lines =
      (if language = [] then [] else [.Code [(language, Style.default)]]) ++
        hl.map .Code := by
  simp [flatten, flattenLines, flattenBlock]

/-- C9: the scroll invariant `scroll_offset ≤ max_scroll` is preserved
by `handle_key` for every key event, by `scroll_down` and `scroll_up`
for every amount, and by `scroll_to_top` and `scroll_to_bottom`,
assuming it held before (`scroll_down` saturates its addition, so no
overflow can wrap the offset). -/
theorem c9_scroll_invariant (a : App) (h : a.scrollInv) (k : KeyEvent) (n : Nat) :
    (a.handle_key k).scrollInv ∧ (a.scroll_down n).scrollInv ∧
    (a.scroll_up n).scrollInv ∧ a.scroll_to_top.scrollInv ∧
    a.scroll_to_bottom.scrollInv := by
  have hdown : ∀ m, (a.scroll_down m).scrollInv := by
    intro m
    simp [App.scroll_down, App.scrollInv, App.max_scroll]
  have hup : ∀ m, (a.scroll_up m).scrollInv := by
    intro m
    simp only [App.scroll_up, App.scrollInv, App.max_scroll] at *
    omega
  have htop : a.scroll_to_top.scrollInv := by
    simp [App.scroll_to_top, App.scrollInv, App.max_scroll]
  have hbot : a.scroll_to_bottom.scrollInv := by
    simp [App.scroll_to_bottom, App.scrollInv, App.max_scroll]
  refine ⟨?_, hdown n, hup n, htop, hbot⟩
  cases hc : k.code with
  | char c =>
    simp only [App.handle_key, hc]
    split_ifs <;>
      first
        | exact hdown _
        | exact hup _
        | exact htop
        | exact hbot
        | exact h
  | down => simp only [App.handle_key, hc]; exact hdown 1
  | up => simp only [App.handle_key, hc]; exact hup 1
  | pageDown => simp only [App.handle_key, hc]; exact hdown _
  | pageUp => simp only [App.handle_key, hc]; exact hup _
  | home => simp only [App.handle_key, hc]; exact htop
  | endKey => simp only [App.handle_key, hc]; exact hbot
  | esc => simp only [App.handle_key, hc]; exact h
  | otherKey => simp only [App.handle_key, hc]; exact h

/-- Witness for C9 at a concrete application state and key. -/
theorem c9_scroll_invariant_witness :
    (⟨10, 0, 5, false⟩ : App).scrollInv ∧
    ((⟨10, 0, 5, false⟩ : App).handle_key ⟨.char 'j', false⟩).scrollInv := by
  have h0 : (⟨10, 0, 5, false⟩ : App).scrollInv := by
    simp [App.scrollInv, App.max_scroll]
  exact ⟨h0, (c9_scroll_invariant ⟨10, 0, 5, false⟩ h0 ⟨.char 'j', false⟩ 3).1⟩

/-- C6: on a heading-end event reaching the normal dispatch, if the
popped state is not `InHeading` the parser emits a `Heading` block of
level 1 and the style stack is left completely unchanged; if the
popped state is `InHeading level` exactly one style-stack entry is
popped and a `Heading` block of that level is emitted. -/
theorem c6_heading_end_recovery (env : SynEnv) (ps : PState)
    (top : ParserState) (rest : List ParserState)
    (hhalt : ps.halted = false)
    (hstack : ps.stateStack = top :: rest)
    (hcb : ∀ l b, top ≠ .InCodeBlock l b)
    (hskip : ∀ d, top ≠ .Skipping d) :
    ((∀ l, top ≠ .InHeading l) →
      parseStep env ps .endHeading =
        { ps with
            stateStack := rest
            blocks := ps.blocks ++ [.Heading 1 ps.currentSpans]
            currentSpans := [] }) ∧
    (∀ l, top = .InHeading l →
      parseStep env ps .endHeading =
        { ps with
            stateStack := rest
            styleStack := ps.styleStack.tail
            blocks := ps.blocks ++ [.Heading l ps.currentSpans]
            currentSpans := [] }) := by
  constructor
  · intro hnh
    cases top with
    | TopLevel => simp [parseStep, hhalt, hstack]
    | InHeading l => exact absurd rfl (hnh l)
    | InParagraph => simp [parseStep, hhalt, hstack]
    | InCodeBlock l b => exact absurd rfl (hcb l b)
    | Skipping d => exact absurd rfl (hskip d)
  · intro l hl
    subst hl
    simp [parseStep, hhalt, hstack]

/-- Witness for C6 at the initial parser state (whose top state
`TopLevel` is not `InHeading`): the recovery path emits a level-1
heading and leaves the (empty) style stack untouched. -/
theorem c6_heading_end_recovery_witness :
    initPState.halted = false ∧
    parseStep emptySynEnv initPState .endHeading =
      { initPState with
          stateStack := []
          blocks := [.Heading 1 []]
          currentSpans := [] } := by
  refine ⟨rfl, ?_⟩
  have := (c6_heading_end_recovery emptySynEnv initPState .TopLevel [] rfl rfl
    (by intro l b h; cases h) (by intro d h; cases h)).1 (by intro l h; cases h)
  simpa [initPState] using this

/-- C5: while the top parser state is `Skipping depth`, a structural
start event replaces it with `Skipping (depth+1)`, a structural end
event pops it when `depth = 0` and replaces it with
`Skipping (depth-1)` otherwise, and every other event is discarded;
consequently a skipped list construct followed by a paragraph emits
exactly the one trailing `Paragraph` block. -/
theorem c5_skipping_depth (env : SynEnv) (ps : PState) (depth : Nat)
    (rest : List ParserState)
    (hhalt : ps.halted = false)
    (hstack : ps.stateStack = .Skipping depth :: rest)
    (ev : Ev) (itemText afterText : List Char) :
    (evIsStart ev = true →
      parseStep env ps ev = { ps with stateStack := .Skipping (depth + 1) :: rest }) ∧
    (evIsEnd ev = true →
      parseStep env ps ev =
        if depth = 0 then { ps with stateStack := rest }
        else { ps with stateStack := .Skipping (depth - 1) :: rest }) ∧
    (evIsStart ev = false → evIsEnd ev = false → parseStep env ps ev = ps) ∧
    parse env
      [.startOther 0, .startOther 1, .startParagraph, .text itemText,
       .endParagraph, .endOther 1, .endOther 0, .startParagraph,
       .text afterText, .endParagraph] =
      [.Paragraph [⟨afterText, Style.default⟩]] := by
  refine ⟨?_, ?_, ?_, ?_⟩
  · intro hstart
    simp only [parseStep, hhalt, hstack]
    simp [hstart]
  · intro hend
    have hstart : evIsStart ev = false := by
      revert hend
      cases ev <;> simp [evIsStart, evIsEnd]
    simp only [parseStep, hhalt, hstack]
    simp [hstart, hend]
  · intro hstart hend
    simp only [parseStep, hhalt, hstack]
    simp [hstart, hend]
  · rfl

/-- Witness for C5 at a concrete skipping configuration and event. -/
theorem c5_skipping_depth_witness :
    (⟨[], [.Skipping 0, .TopLevel], [], [], false⟩ : PState).halted = false ∧
    parseStep emptySynEnv ⟨[], [.Skipping 0, .TopLevel], [], [], false⟩ .startParagraph =
      { (⟨[], [.Skipping 0, .TopLevel], [], [], false⟩ : PState) with
          stateStack := [.Skipping 1, .TopLevel] } := by
  exact ⟨rfl,
    (c5_skipping_depth emptySynEnv ⟨[], [.Skipping 0, .TopLevel], [], [], false⟩ 0
      [.TopLevel] rfl rfl .startParagraph [] []).1 rfl⟩

/-- C7: the language recorded in a `CodeBlock` is the raw fence info
string reduced to its first whitespace-delimited token and then to the
portion before its first comma; indented code blocks record the empty
language. -/
theorem c7_language_normalization (env : SynEnv) (info buf : List Char) :
    parse env [.startCodeBlock (.fenced info), .text buf, .endCodeBlock] =
      [.CodeBlock (langFromInfo info)
        (highlight_code env buf (langFromInfo info) defaultTheme)] ∧
    parse env [.startCodeBlock .indented, .text buf, .endCodeBlock] =
      [.CodeBlock [] (highlight_code env buf [] defaultTheme)] :=
  ⟨rfl, rfl⟩

/-- C3 (behavior at the failing input): when the line-breaking result
is not a substring of the plain buffer at or after the cursor, the
mapping loop of `wrap_styled_spans` emits a line with zero spans — the
returned text `"xy"` is silently dropped, not emitted as an unstyled
run. -/
theorem c3_nonsubstring_line_dropped :
    wrapMapGo ['a', 'b'] [Style.default, Style.default] [['x', 'y']] 0 = [[]] ∧
    wrapMapGo ['a', 'b'] [Style.default, Style.default] [['x', 'y']] 0 ≠
      [[(['x', 'y'], Style.default)]] := by
  have hval : wrapMapGo ['a', 'b'] [Style.default, Style.default] [['x', 'y']] 0 = [[]] := by
    simp [wrapMapGo, advance, List.isPrefixOf, build_spans_for_range]
  exact ⟨hval, by simp [hval]⟩

/-- C8: `highlight_code` always degrades instead of failing: over the
byte cap the result is the plain unstyled lines for every tokenizer
(no tokenization is attempted); with no usable theme the result is
again the plain unstyled lines; otherwise the call emits exactly one
output line per source line regardless of the language or tokenizer
errors. -/
theorem c8_highlight_degrades (env : SynEnv) (code language themeName : List Char) :
    (MAX_HIGHLIGHT_BYTES < code.length →
      ∀ tok, highlight_code { env with tokenize := tok } code language themeName =
        (linesOf code).map plainLine) ∧
    (code.length ≤ MAX_HIGHLIGHT_BYTES → themeName ∉ env.themes →
      defaultTheme ∉ env.themes →
      highlight_code env code language themeName = (linesOf code).map plainLine) ∧
    (code.length ≤ MAX_HIGHLIGHT_BYTES →
      (themeName ∈ env.themes ∨ defaultTheme ∈ env.themes) →
      (highlight_code env code language themeName).length = (linesWE code).length) := by
  refine ⟨?_, ?_, ?_⟩
  · intro hbig tok
    simp [highlight_code, hbig]
  · intro hsmall hth hdt
    have hbig : ¬ MAX_HIGHLIGHT_BYTES < code.length := by omega
    simp [highlight_code, hbig, hth, hdt]
  · intro hsmall hth
    have hbig : ¬ MAX_HIGHLIGHT_BYTES < code.length := by omega
    simp [highlight_code, hbig, hth]

/-- Witness for C8: a 524289-character input is over the cap and comes
back as plain lines even with a succeeding tokenizer; a small input
with no themes available comes back as plain lines; a small input with
the default theme available yields one line per source line. -/
theorem c8_highlight_degrades_witness :
    (MAX_HIGHLIGHT_BYTES < (List.replicate 524289 'a').length ∧
      highlight_code { emptySynEnv with tokenize := fun _ _ => Except.ok [] }
          (List.replicate 524289 'a') ['r'] defaultTheme =
        (linesOf (List.replicate 524289 'a')).map plainLine) ∧
    (highlight_code emptySynEnv ['a'] ['r'] ['x'] = (linesOf ['a']).map plainLine) ∧
    (highlight_code defaultThemeSynEnv ['a'] ['r'] defaultTheme).length =
      (linesWE ['a']).length := by
  have hbig : MAX_HIGHLIGHT_BYTES < (List.replicate 524289 'a').length := by
    rw [List.length_replicate]
    norm_num [MAX_HIGHLIGHT_BYTES]
  refine ⟨⟨hbig, ?_⟩, ?_, ?_⟩
  · exact (c8_highlight_degrades emptySynEnv (List.replicate 524289 'a') ['r']
      defaultTheme).1 hbig (fun _ _ => Except.ok [])
  · exact (c8_highlight_degrades emptySynEnv ['a'] ['r'] ['x']).2.1
      (by simp [MAX_HIGHLIGHT_BYTES]) (by simp [emptySynEnv]) (by simp [emptySynEnv])
  · exact (c8_highlight_degrades defaultThemeSynEnv ['a'] ['r'] defaultTheme).2.2
      (by simp [MAX_HIGHLIGHT_BYTES]) (by simp [defaultThemeSynEnv])

/-- Splitting at newlines peels off a newline-free prefix as one
segment. -/
theorem splitOnNl_append (a r : List Char) (ha : '\n' ∉ a) :
    splitOnNl (a ++ '\n' :: r) = a :: splitOnNl r := by
  induction a with
  | nil => simp [splitOnNl]
  | cons c cs ih =>
    have hc : ¬ c = '\n' := by
      intro h
      exact ha (h ▸ List.mem_cons_self c cs)
    have ih' := ih (fun h => ha (List.mem_cons_of_mem c h))
    simp only [List.cons_append, splitOnNl, hc, if_false, List.append_eq, ih']

/-- A newline-free list is a single segment. -/
theorem splitOnNl_eq_self (b : List Char) (hb : '\n' ∉ b) :
    splitOnNl b = [b] := by
  induction b with
  | nil => rfl
  | cons c cs ih =>
    have hc : ¬ c = '\n' := by
      intro h
      exact hb (h ▸ List.mem_cons_self c cs)
    have ih' := ih (fun h => hb (List.mem_cons_of_mem c h))
    simp only [splitOnNl, hc, if_false, ih']

/-- A group always contributes at least one line. -/
theorem wrapOrBlank_ne_nil (g : List StyledSpan) (width : Nat) :
    wrapOrBlank g width ≠ [] := by
  simp only [wrapOrBlank]
  split <;> simp_all

/-- C10: an empty segment between two consecutive hard breaks produces
exactly one `Text` output line containing zero spans (a blank styled
line, not a `DocumentLine.Empty`), while a hard break ending the
content with nothing after it produces no output line at all. -/
theorem c10_hard_break_blank_lines (s : Style) (a b : List Char) (width : Nat)
    (ha : '\n' ∉ a) (hb : '\n' ∉ b) (hb0 : b ≠ []) :
    (flatten [.Paragraph [⟨a ++ '\n' :: '\n' :: b, s⟩]] width).lines =
      (wrapOrBlank (if a = [] then [] else [⟨a, s⟩]) (max width 1) ++ [[]] ++
        wrapOrBlank [⟨b, s⟩] (max width 1)).map .Text ∧
    (flatten [.Paragraph [⟨a ++ ['\n'], s⟩]] width).lines =
      (wrapOrBlank (if a = [] then [] else [⟨a, s⟩]) (max width 1)).map .Text := by
  have hmem1 : '\n' ∈ a ++ '\n' :: '\n' :: b := by simp
  have hmem2 : '\n' ∈ a ++ ['\n'] := by simp
  have hsplit1 : splitOnNl (a ++ '\n' :: '\n' :: b) = [a, [], b] := by
    rw [splitOnNl_append a _ ha]
    simp [splitOnNl, splitOnNl_eq_self b hb]
  have hsplit2 : splitOnNl (a ++ ['\n']) = [a, []] := by
    rw [splitOnNl_append a _ ha]
    simp [splitOnNl]
  constructor
  · have hwrap :
        wrap_styled_spans [⟨a ++ '\n' :: '\n' :: b, s⟩] (max width 1) =
          wrapOrBlank (if a = [] then [] else [⟨a, s⟩]) (max width 1) ++ [[]] ++
            wrapOrBlank [⟨b, s⟩] (max width 1) := by
      simp only [wrap_styled_spans, wrap_with_hard_breaks, splitGroups,
        splitGroupsGo, splitParts, hsplit1, hmem1]
      simp [hb0, wrapOrBlank, wrapCore, concatText]
    have hne : wrap_styled_spans [⟨a ++ '\n' :: '\n' :: b, s⟩] (max width 1) ≠ [] := by
      rw [hwrap]
      simp
    simp only [flatten, flattenLines, flattenBlock]
    rw [hwrap] at hne ⊢
    simp only [hne, if_false]
  · have hwrap :
        wrap_styled_spans [⟨a ++ ['\n'], s⟩] (max width 1) =
          wrapOrBlank (if a = [] then [] else [⟨a, s⟩]) (max width 1) := by
      simp only [wrap_styled_spans, wrap_with_hard_breaks, splitGroups,
        splitGroupsGo, splitParts, hsplit2, hmem2]
      simp [wrapOrBlank]
    have hne : wrap_styled_spans [⟨a ++ ['\n'], s⟩] (max width 1) ≠ [] := by
      rw [hwrap]
      exact wrapOrBlank_ne_nil _ _
    simp only [flatten, flattenLines, flattenBlock]
    rw [hwrap] at hne ⊢
    simp only [hne, if_false]

/-- Witness for C10 at concrete content "x\n\ny" and "x\n". -/
theorem c10_hard_break_blank_lines_witness :
    ('\n' ∉ ['x']) ∧ ('\n' ∉ ['y']) ∧ ['y'] ≠ ([] : List Char) ∧
    ((flatten [.Paragraph [⟨['x'] ++ '\n' :: '\n' :: ['y'], Style.default⟩]] 5).lines =
      (wrapOrBlank (if ['x'] = [] then [] else [⟨['x'], Style.default⟩]) (max 5 1) ++
        [[]] ++ wrapOrBlank [⟨['y'], Style.default⟩] (max 5 1)).map .Text ∧
    (flatten [.Paragraph [⟨['x'] ++ ['\n'], Style.default⟩]] 5).lines =
      (wrapOrBlank (if ['x'] = [] then [] else [⟨['x'], Style.default⟩]) (max 5 1)).map .Text) := by
  refine ⟨by decide, by decide, by decide, ?_⟩
  exact c10_hard_break_blank_lines Style.default ['x'] ['y'] 5
    (by decide) (by decide) (by decide)

/-- A boolean prefix is no longer than the list. -/
theorem isPrefixOf_length_le (w l : List Char) (h : w.isPrefixOf l = true) :
    w.length ≤ l.length := by
  induction w generalizing l with
  | nil => simp
  | cons a as ih =>
    cases l with
    | nil => simp [List.isPrefixOf] at h
    | cons b bs =>
      simp only [List.isPrefixOf, Bool.and_eq_true] at h
      have := ih bs h.2
      simp only [List.length_cons]
      omega

/-- Taking the length of a boolean prefix recovers the prefix. -/
theorem isPrefixOf_take_eq (w l : List Char) (h : w.isPrefixOf l = true) :
    l.take w.length = w := by
  induction w generalizing l with
  | nil => simp
  | cons a as ih =>
    cases l with
    | nil => simp [List.isPrefixOf] at h
    | cons b bs =>
      simp only [List.isPrefixOf, Bool.and_eq_true, beq_iff_eq] at h
      simp [h.1, ih bs h.2]

/-- A take of a list is a boolean prefix of it. -/
theorem take_isPrefixOf_self (l : List Char) (n : Nat) :
    (l.take n).isPrefixOf l = true := by
  induction l generalizing n with
  | nil => simp [List.isPrefixOf]
  | cons a as ih =>
    cases n with
    | zero => simp [List.isPrefixOf]
    | succ m => simp [List.isPrefixOf, ih m]

/-- `dropWhile` drops exactly the `takeWhile` prefix. -/
theorem dropWhile_eq_drop_len (p : Char → Bool) (l : List Char) :
    l.dropWhile p = l.drop (l.takeWhile p).length := by
  induction l with
  | nil => simp
  | cons a as ih =>
    by_cases hp : p a
    · simp [List.dropWhile_cons, List.takeWhile_cons, hp, ih]
    · simp [List.dropWhile_cons, List.takeWhile_cons, hp]

/-- The head surviving a `dropWhile` falsifies the predicate. -/
theorem head_dropWhile_false (p : Char → Bool) (l : List Char) (c : Char)
    (cs : List Char) (h : l.dropWhile p = c :: cs) : p c = false := by
  induction l with
  | nil => simp at h
  | cons a as ih =>
    by_cases hp : p a
    · exact ih (by simpa [List.dropWhile_cons, hp] using h)
    · simp only [List.dropWhile_cons, hp, if_false] at h
      cases h
      simp only [Bool.not_eq_true] at hp
      exact hp

/-- Grouping runs preserves the underlying characters. -/
theorem groupRuns_text (l : List (Char × Style)) :
    ((groupRuns l).map (fun p => p.1)).flatten = l.map (fun p => p.1) := by
  induction l with
  | nil => rfl
  | cons a rest ih =>
    obtain ⟨c, s⟩ := a
    simp only [groupRuns]
    cases hg : groupRuns rest with
    | nil =>
      rw [hg] at ih
      simp only [List.map_nil, List.flatten_nil] at ih
      simp [← ih]
    | cons b tail =>
      obtain ⟨cs, s2⟩ := b
      rw [hg] at ih
      by_cases hss : s2 = s
      · simp only [hss, if_true]
        simp only [List.map_cons, List.flatten_cons] at ih ⊢
        simp [← ih]
      · simp only [hss, if_false]
        simp only [List.map_cons, List.flatten_cons] at ih ⊢
        simp [← ih]

/-- The text of the spans built for a range is the corresponding slice
of the plain buffer. -/
theorem build_spans_text (plain : List Char) (styles : List Style)
    (start stop : Nat) (hlen : styles.length = plain.length) :
    lineText (build_spans_for_range plain styles start stop) =
      (plain.drop start).take (stop - start) := by
  unfold build_spans_for_range lineText
  split
  · rename_i hguard
    rcases hguard with h | h
    · have : stop - start = 0 := by omega
      simp [this]
    · have hdrop : plain.drop start = [] := by
        apply List.drop_eq_nil_of_le
        omega
      simp [hdrop]
  · rw [groupRuns_text]
    have hfst : (plain.zip styles).map (fun p => p.1) = plain :=
      List.map_fst_zip plain styles (by omega)
    rw [List.map_take, List.map_drop, hfst]

/-- If `w` occurs at some position `p` at or after the cursor, the
forward scan stops at or before `p`, at a position where `w` occurs. -/
theorem advance_found (plain w : List Char) :
    ∀ (k c p : Nat), p - c ≤ k → c ≤ p → p + w.length ≤ plain.length →
      w.isPrefixOf (plain.drop p) = true →
      c ≤ advance plain w c ∧ advance plain w c ≤ p ∧
        w.isPrefixOf (plain.drop (advance plain w c)) = true := by
  intro k
  induction k with
  | zero =>
    intro c p hk hcp hlen hpre
    have hpc : p = c := by omega
    subst hpc
    rw [advance]
    by_cases hc : p < plain.length
    · simp [hc, hpre]
    · simp [hc, hpre]
  | succ k ih =>
    intro c p hk hcp hlen hpre
    rw [advance]
    by_cases hc : c < plain.length
    · by_cases hpc : w.isPrefixOf (plain.drop c) = true
      · simp [hc, hpc, hcp]
      · have hne : c ≠ p := fun h => hpc (h ▸ hpre)
        obtain ⟨hr1, hr2, hr3⟩ := ih (c + 1) p (by omega) (by omega) hlen hpre
        simp only [hc, dif_pos, if_neg hpc]
        exact ⟨by omega, hr2, hr3⟩
    · have hple : plain.length ≤ c := by omega
      have hcep : c = p := by omega
      subst hcep
      simp [hc, hpre]

/-- `FindableFrom` is antitone in the starting cursor. -/
theorem findableFrom_mono (plain : List Char) (ws : List (List Char)) :
    ∀ c c', c' ≤ c → FindableFrom plain c ws → FindableFrom plain c' ws := by
  cases ws with
  | nil => intro _ _ _ _; trivial
  | cons w ws =>
    intro c c' hcc h
    simp only [FindableFrom] at h ⊢
    obtain ⟨p, hcp, hlen, hpre, hrest⟩ := h
    exact ⟨p, by omega, hlen, hpre, hrest⟩

/-- Fidelity of the cursor mapping: when the wrapped lines occur as
ordered disjoint substrings at or after the cursor, the emitted lines
carry exactly the wrapped lines' text. -/
theorem wrapMapGo_texts (plain : List Char) (styles : List Style)
    (hlen : styles.length = plain.length) :
    ∀ (ws : List (List Char)) (c : Nat), FindableFrom plain c ws →
      (wrapMapGo plain styles ws c).map lineText = ws := by
  intro ws
  induction ws with
  | nil => intro c _; rfl
  | cons w ws ih =>
    intro c hf
    simp only [FindableFrom] at hf
    obtain ⟨p, hcp, hplen, hpre, hrest⟩ := hf
    obtain ⟨hc1, hc2, hpre'⟩ :=
      advance_found plain w (p - c) c p (le_refl _) hcp hplen hpre
    have hwq : w.length ≤ plain.length - advance plain w c := by
      have := isPrefixOf_length_le w _ hpre'
      rw [List.length_drop] at this
      exact this
    have hstop : min (advance plain w c + w.length) plain.length =
        advance plain w c + w.length := by omega
    have h1 : lineText (build_spans_for_range plain styles (advance plain w c)
        (min (advance plain w c + w.length) plain.length)) = w := by
      rw [hstop, build_spans_text _ _ _ _ hlen]
      have hsub : advance plain w c + w.length - advance plain w c = w.length := by
        omega
      rw [hsub]
      exact isPrefixOf_take_eq w _ hpre'
    have h2 : (wrapMapGo plain styles ws
        (min (advance plain w c + w.length) plain.length)).map lineText = ws := by
      rw [hstop]
      exact ih _ (findableFrom_mono plain ws (p + w.length)
        (advance plain w c + w.length) (by omega) hrest)
    simp only [wrapMapGo, List.map_cons, h1, h2]

/-- `dropWhile` never lengthens a list. -/
theorem dropWhile_length_le (p : Char → Bool) (l : List Char) :
    (l.dropWhile p).length ≤ l.length := by
  induction l with
  | nil => simp
  | cons a as ih =>
    by_cases hp : p a
    · simp only [List.dropWhile_cons, hp, if_true]
      simp only [List.length_cons]
      omega
    · simp [List.dropWhile_cons, hp]

/-- Unfolding `words` at a whitespace head. -/
theorem words_sp_cons (c : Char) (cs : List Char) (h : isSp c = true) :
    words (c :: cs) = words cs := by
  rw [words]
  simp [h]

/-- Unfolding `words` at a non-whitespace head. -/
theorem words_nonsp_cons (c : Char) (cs : List Char) (h : isSp c = false) :
    words (c :: cs) =
      (c :: cs.takeWhile (fun d => ¬ isSp d)) ::
        words (cs.dropWhile (fun d => ¬ isSp d)) := by
  rw [words]
  simp [h]

/-- `takeWhile`/`dropWhile` over an append when the predicate fails
somewhere in the left part. -/
theorem takeWhile_append_of_ne (q : Char → Bool) (cs b : List Char)
    (h : cs.dropWhile q ≠ []) :
    (cs ++ b).takeWhile q = cs.takeWhile q ∧
      (cs ++ b).dropWhile q = cs.dropWhile q ++ b := by
  induction cs with
  | nil => simp at h
  | cons x xs ih =>
    by_cases hq : q x
    · have h' : xs.dropWhile q ≠ [] := by
        simpa [List.dropWhile_cons, hq] using h
      obtain ⟨ht, hd⟩ := ih h'
      simp [List.takeWhile_cons, List.dropWhile_cons, hq, ht, hd]
    · simp [List.takeWhile_cons, List.dropWhile_cons, hq]

/-- `takeWhile`/`dropWhile` over an append when the predicate holds on
all of the left part. -/
theorem takeWhile_append_of_all (q : Char → Bool) (cs b : List Char)
    (h : cs.dropWhile q = []) :
    (cs ++ b).takeWhile q = cs ++ b.takeWhile q ∧
      (cs ++ b).dropWhile q = b.dropWhile q := by
  induction cs with
  | nil => simp
  | cons x xs ih =>
    by_cases hq : q x
    · have h' : xs.dropWhile q = [] := by
        simpa [List.dropWhile_cons, hq] using h
      obtain ⟨ht, hd⟩ := ih h'
      simp [List.takeWhile_cons, List.dropWhile_cons, hq, ht, hd]
    · simp [List.dropWhile_cons, hq] at h

/-- Splitting `words` across an append whose right part is empty or
starts with whitespace. -/
theorem words_append_sp (a b : List Char)
    (hb : b = [] ∨ ∃ c cs, b = c :: cs ∧ isSp c = true) :
    words (a ++ b) = words a ++ words b := by
  have hbt : b.takeWhile (fun d => ¬ isSp d) = [] := by
    rcases hb with h | ⟨c, cs, rfl, hsp⟩
    · simp [h]
    · simp [List.takeWhile_cons, hsp]
  have hbd : b.dropWhile (fun d => ¬ isSp d) = b := by
    rcases hb with h | ⟨c, cs, rfl, hsp⟩
    · simp [h]
    · simp [List.dropWhile_cons, hsp]
  suffices hgen : ∀ (n : Nat) (a : List Char), a.length ≤ n →
      words (a ++ b) = words a ++ words b by
    exact hgen a.length a (le_refl _)
  intro n
  induction n with
  | zero =>
    intro a ha
    have : a = [] := by
      cases a with
      | nil => rfl
      | cons x xs => simp at ha
    subst this
    simp [words]
  | succ n ih =>
    intro a ha
    cases a with
    | nil => simp [words]
    | cons c cs =>
      simp only [List.length_cons] at ha
      by_cases hsp : isSp c = true
      · rw [List.cons_append, words_sp_cons _ _ hsp, words_sp_cons _ _ hsp]
        exact ih cs (by omega)
      · have hsp' : isSp c = false := by
          cases hc : isSp c
          · rfl
          · exact absurd hc hsp
        rw [List.cons_append, words_nonsp_cons _ _ hsp',
          words_nonsp_cons _ _ hsp']
        by_cases hall : cs.dropWhile (fun d => ¬ isSp d) = []
        · obtain ⟨ht, hd⟩ := takeWhile_append_of_all _ cs b hall
          have hcs : cs.takeWhile (fun d => ¬ isSp d) = cs := by
            have := List.takeWhile_append_dropWhile (fun d => ¬ isSp d) cs
            rw [hall, List.append_nil] at this
            exact this
          rw [ht, hd, hall, hbt, hbd, hcs, List.append_nil]
          simp [words]
        · obtain ⟨ht, hd⟩ := takeWhile_append_of_ne _ cs b hall
          rw [ht, hd]
          have hlen : (cs.dropWhile (fun d => ¬ isSp d)).length ≤ n := by
            have := dropWhile_length_le (fun d => ¬ isSp d) cs
            omega
          rw [ih _ hlen]
          simp

/-- `words` ignores leading whitespace. -/
theorem words_dropWhile_sp (l : List Char) :
    words (l.dropWhile isSp) = words l := by
  induction l with
  | nil => simp
  | cons c cs ih =>
    by_cases hsp : isSp c = true
    · rw [List.dropWhile_cons]
      simp only [hsp, if_true]
      rw [ih, words_sp_cons _ _ hsp]
    · rw [List.dropWhile_cons]
      simp [hsp]

/-- `takeWhile` never lengthens a list. -/
theorem takeWhile_length_le (p : Char → Bool) (l : List Char) :
    (l.takeWhile p).length ≤ l.length := by
  induction l with
  | nil => simp
  | cons a as ih =>
    by_cases hp : p a
    · simp only [List.takeWhile_cons, hp, if_true, List.length_cons]
      omega
    · simp [List.takeWhile_cons, hp]

/-- The greedy fill step only grows the line, stays within the text,
and stops at a word boundary (the rest is empty or starts with
whitespace), provided it starts at one. -/
theorem extendLine_spec (t : List Char) (width : Nat) :
    ∀ (k n : Nat), width - n ≤ k → n ≤ t.length →
      (t.drop n = [] ∨ ∃ c cs, t.drop n = c :: cs ∧ isSp c = true) →
      n ≤ extendLine t width n ∧ extendLine t width n ≤ t.length ∧
        (t.drop (extendLine t width n) = [] ∨
          ∃ c cs, t.drop (extendLine t width n) = c :: cs ∧ isSp c = true) := by
  intro k
  induction k with
  | zero =>
    intro n hk hn hb
    rw [extendLine]
    by_cases hcond : 0 < nextWordLen t n ∧ n + gapLen t n + nextWordLen t n ≤ width
    · exact absurd hcond (by omega)
    · rw [if_neg hcond]
      exact ⟨le_refl _, hn, hb⟩
  | succ k ih =>
    intro n hk hn hb
    rw [extendLine]
    by_cases hcond : 0 < nextWordLen t n ∧ n + gapLen t n + nextWordLen t n ≤ width
    · rw [if_pos hcond]
      have hg : gapLen t n ≤ t.length - n := by
        have := takeWhile_length_le isSp (t.drop n)
        simp only [gapLen]
        rw [List.length_drop] at this
        omega
      have hw : nextWordLen t n ≤ t.length - n - gapLen t n := by
        have := takeWhile_length_le (fun c => ¬ isSp c)
          ((t.drop n).drop (gapLen t n))
        simp only [nextWordLen]
        rw [List.length_drop, List.length_drop] at this
        omega
      have hn' : n + gapLen t n + nextWordLen t n ≤ t.length := by omega
      have hb' : t.drop (n + gapLen t n + nextWordLen t n) = [] ∨
          ∃ c cs, t.drop (n + gapLen t n + nextWordLen t n) = c :: cs ∧
            isSp c = true := by
        have hrw : t.drop (n + gapLen t n + nextWordLen t n) =
            (((t.drop n).drop (gapLen t n)).dropWhile (fun c => ¬ isSp c)) := by
          rw [dropWhile_eq_drop_len]
          rw [List.drop_drop, List.drop_drop]
          congr 1
          simp only [nextWordLen]
          omega
        rw [hrw]
        cases hd : ((t.drop n).drop (gapLen t n)).dropWhile (fun c => ¬ isSp c) with
        | nil => exact Or.inl rfl
        | cons d ds =>
          refine Or.inr ⟨d, ds, rfl, ?_⟩
          have := head_dropWhile_false (fun c => ¬ isSp c) _ d ds hd
          simpa using this
      obtain ⟨h1, h2, h3⟩ := ih (n + gapLen t n + nextWordLen t n)
        (by omega) hn' hb'
      exact ⟨by omega, h2, h3⟩
    · rw [if_neg hcond]
      exact ⟨le_refl _, hn, hb⟩

/-- The first word of a list with a non-whitespace head is non-empty. -/
theorem firstWordLen_pos (t : List Char) (c : Char) (cs : List Char)
    (ht : t = c :: cs) (hc : isSp c = false) : 1 ≤ firstWordLen t := by
  subst ht
  simp only [firstWordLen, List.takeWhile_cons, hc]
  simp

/-- The first word is never longer than the text. -/
theorem firstWordLen_le (t : List Char) : firstWordLen t ≤ t.length :=
  takeWhile_length_le _ t

/-- The first word starts at a word boundary: what follows it is empty
or starts with whitespace. -/
theorem firstWord_boundary (t : List Char) :
    t.drop (firstWordLen t) = [] ∨
      ∃ d ds, t.drop (firstWordLen t) = d :: ds ∧ isSp d = true := by
  have hrw : t.drop (firstWordLen t) = t.dropWhile (fun c => ¬ isSp c) := by
    rw [dropWhile_eq_drop_len]
    rfl
  rw [hrw]
  cases hd : t.dropWhile (fun c => ¬ isSp c) with
  | nil => exact Or.inl rfl
  | cons d ds =>
    refine Or.inr ⟨d, ds, rfl, ?_⟩
    have := head_dropWhile_false (fun c => ¬ isSp c) _ d ds hd
    simpa using this

/-- The number of characters placed on a line never exceeds the text
length (over a text with a non-whitespace head). -/
theorem lineLen_le_length (width : Nat) (t : List Char) (c : Char)
    (cs : List Char) (ht : t = c :: cs) (hc : isSp c = false) :
    max 1 (lineLen (max 1 width) t) ≤ t.length := by
  have hw1 : 1 ≤ firstWordLen t := firstWordLen_pos t c cs ht hc
  have hle : firstWordLen t ≤ t.length := firstWordLen_le t
  simp only [lineLen]
  by_cases hbr : max 1 width < firstWordLen t
  · rw [if_pos hbr]
    omega
  · rw [if_neg hbr]
    obtain ⟨h1, h2, _⟩ := extendLine_spec t (max 1 width)
      (max 1 width - firstWordLen t) (firstWordLen t) (le_refl _) hle
      (firstWord_boundary t)
    omega

/-- When the first word fits within the width, the characters placed on
a line form a full prefix ending at a word boundary. -/
theorem lineLen_boundary (width : Nat) (t : List Char) (c : Char)
    (cs : List Char) (ht : t = c :: cs) (hc : isSp c = false)
    (hfit : firstWordLen t ≤ max 1 width) :
    1 ≤ lineLen (max 1 width) t ∧ lineLen (max 1 width) t ≤ t.length ∧
      (t.drop (lineLen (max 1 width) t) = [] ∨
        ∃ d ds, t.drop (lineLen (max 1 width) t) = d :: ds ∧ isSp d = true) := by
  have hw1 : 1 ≤ firstWordLen t := firstWordLen_pos t c cs ht hc
  have hle : firstWordLen t ≤ t.length := firstWordLen_le t
  have hbr : ¬ max 1 width < firstWordLen t := by omega
  simp only [lineLen]
  rw [if_neg hbr]
  obtain ⟨h1, h2, h3⟩ := extendLine_spec t (max 1 width)
    (max 1 width - firstWordLen t) (firstWordLen t) (le_refl _) hle
    (firstWord_boundary t)
  exact ⟨by omega, h2, h3⟩

/-- `greedyWrap` on text that is all whitespace (or empty) yields no
lines. -/
theorem greedyWrap_nil_of (width : Nat) (s : List Char)
    (h : s.dropWhile isSp = []) : greedyWrap width s = [] := by
  rw [greedyWrap]
  simp [h]

/-- Unfolding `greedyWrap` when some non-whitespace text remains. -/
theorem greedyWrap_cons_of (width : Nat) (s t : List Char)
    (ht : s.dropWhile isSp = t) (hne : t ≠ []) :
    greedyWrap width s =
      t.take (max 1 (lineLen (max 1 width) t)) ::
        greedyWrap width (t.drop (max 1 (lineLen (max 1 width) t))) := by
  rw [greedyWrap]
  simp only [ht]
  simp [hne]

/-- The slices produced by the greedy wrap are ordered, disjoint,
in-bounds substrings of the buffer: they are findable by the
forward-only cursor. -/
theorem greedy_findable (width : Nat) (plain : List Char) :
    ∀ (m k : Nat), plain.length - k ≤ m →
      FindableFrom plain k (greedyWrap width (plain.drop k)) := by
  intro m
  induction m with
  | zero =>
    intro k hk
    have hdrop : plain.drop k = [] := List.drop_eq_nil_of_le (by omega)
    rw [hdrop, greedyWrap_nil_of width [] (by simp)]
    simp [FindableFrom]
  | succ m ih =>
    intro k hk
    cases ht : (plain.drop k).dropWhile isSp with
    | nil =>
      rw [greedyWrap_nil_of width _ ht]
      simp [FindableFrom]
    | cons c cs =>
      have hc : isSp c = false := head_dropWhile_false isSp _ c cs ht
      have htd : c :: cs = plain.drop (k + ((plain.drop k).takeWhile isSp).length) := by
        rw [← List.drop_drop, ← dropWhile_eq_drop_len, ht]
      have hne : c :: cs ≠ [] := by simp
      rw [greedyWrap_cons_of width _ _ ht hne]
      have hnle : max 1 (lineLen (max 1 width) (c :: cs)) ≤ (c :: cs).length :=
        lineLen_le_length width (c :: cs) c cs rfl hc
      have hlen : ((c :: cs).take (max 1 (lineLen (max 1 width) (c :: cs)))).length =
          max 1 (lineLen (max 1 width) (c :: cs)) := by
        rw [List.length_take]
        omega
      have hkd : k + ((plain.drop k).takeWhile isSp).length < plain.length := by
        by_contra hcon
        have : plain.drop (k + ((plain.drop k).takeWhile isSp).length) = [] :=
          List.drop_eq_nil_of_le (by omega)
        rw [← htd] at this
        exact hne this
      have htlen : (c :: cs).length =
          plain.length - (k + ((plain.drop k).takeWhile isSp).length) := by
        rw [htd, List.length_drop]
      simp only [FindableFrom]
      refine ⟨k + ((plain.drop k).takeWhile isSp).length, by omega, ?_, ?_, ?_⟩
      · rw [hlen]
        omega
      · rw [← htd]
        exact take_isPrefixOf_self _ _
      · rw [hlen]
        have hdr : (c :: cs).drop (max 1 (lineLen (max 1 width) (c :: cs))) =
            plain.drop (k + ((plain.drop k).takeWhile isSp).length +
              max 1 (lineLen (max 1 width) (c :: cs))) := by
          rw [htd, List.drop_drop]
        rw [hdr]
        exact ih _ (by omega)

/-- `words` of the empty list. -/
theorem words_nil : words [] = [] := by
  rw [words]

/-- Word preservation of the greedy wrap model: joining its lines with
single spaces preserves the word decomposition, provided no word
exceeds the (clamped) width. -/
theorem greedy_words (width : Nat) :
    ∀ (m : Nat) (s : List Char), s.length ≤ m →
      (∀ w ∈ words s, w.length ≤ max 1 width) →
      words (joinLines (greedyWrap width s)) = words s := by
  intro m
  induction m with
  | zero =>
    intro s hs _
    have hnil : s = [] := by
      cases s with
      | nil => rfl
      | cons a l => simp at hs
    subst hnil
    rw [greedyWrap_nil_of width [] (by simp)]
    rfl
  | succ m ih =>
    intro s hs hw
    cases ht : s.dropWhile isSp with
    | nil =>
      rw [greedyWrap_nil_of width s ht]
      rw [← words_dropWhile_sp s, ht]
      rfl
    | cons c cs =>
      have hc : isSp c = false := head_dropWhile_false isSp _ c cs ht
      have hst : words s = words (c :: cs) := by
        rw [← words_dropWhile_sp s, ht]
      have hmem : (c :: cs.takeWhile (fun d => ¬ isSp d)) ∈ words s := by
        rw [hst, words_nonsp_cons _ _ hc]
        exact List.mem_cons_self _ _
      have hw1fit : firstWordLen (c :: cs) ≤ max 1 width := by
        have := hw _ hmem
        simp only [List.length_cons] at this
        simp only [firstWordLen, List.takeWhile_cons, hc]
        simpa using this
      obtain ⟨hb1, hb2, hb3⟩ := lineLen_boundary width (c :: cs) c cs rfl hc hw1fit
      have hmax : max 1 (lineLen (max 1 width) (c :: cs)) =
          lineLen (max 1 width) (c :: cs) := by omega
      rw [greedyWrap_cons_of width s (c :: cs) ht (by simp), hmax]
      have hsplit : words (c :: cs) =
          words ((c :: cs).take (lineLen (max 1 width) (c :: cs))) ++
            words ((c :: cs).drop (lineLen (max 1 width) (c :: cs))) := by
        conv_lhs => rw [← List.take_append_drop (lineLen (max 1 width) (c :: cs)) (c :: cs)]
        exact words_append_sp _ _ hb3
      have hwtail : ∀ w ∈ words ((c :: cs).drop (lineLen (max 1 width) (c :: cs))),
          w.length ≤ max 1 width := by
        intro w hwmem
        apply hw
        rw [hst, hsplit]
        exact List.mem_append_right _ hwmem
      have hlen' : ((c :: cs).drop (lineLen (max 1 width) (c :: cs))).length ≤ m := by
        have h1 : (c :: cs).length ≤ s.length := by
          rw [← ht]
          exact dropWhile_length_le isSp s
        rw [List.length_drop]
        omega
      cases hg : greedyWrap width ((c :: cs).drop (lineLen (max 1 width) (c :: cs))) with
      | nil =>
        have hdnil : (((c :: cs).drop (lineLen (max 1 width) (c :: cs))).dropWhile isSp) = [] := by
          by_contra hcon
          cases hd : ((c :: cs).drop (lineLen (max 1 width) (c :: cs))).dropWhile isSp with
          | nil => exact hcon hd
          | cons x xs =>
            rw [greedyWrap_cons_of width _ _ hd (by simp)] at hg
            simp at hg
        have hwd : words ((c :: cs).drop (lineLen (max 1 width) (c :: cs))) = [] := by
          rw [← words_dropWhile_sp, hdnil, words_nil]
        rw [hst, hsplit, hwd, List.append_nil]
        rfl
      | cons g gs =>
        have hj : joinLines ((c :: cs).take (lineLen (max 1 width) (c :: cs)) :: g :: gs) =
            (c :: cs).take (lineLen (max 1 width) (c :: cs)) ++ ' ' :: joinLines (g :: gs) :=
          rfl
        rw [hj]
        rw [words_append_sp _ _ (Or.inr ⟨' ', joinLines (g :: gs), rfl, by decide⟩)]
        rw [words_sp_cons _ _ (by decide)]
        rw [← hg, ih _ hlen' hwtail]
        rw [hst, hsplit]

/-- The per-character style table has one entry per character of the
plain buffer. -/
theorem byteStyles_length (spans : List StyledSpan) :
    (byteStyles spans).length = (concatText spans).length := by
  induction spans with
  | nil => rfl
  | cons sp rest ih =>
    simp only [byteStyles, concatText, List.map_cons, List.flatten_cons,
      List.length_append, List.length_replicate] at ih ⊢
    omega

/-- Word preservation of the core wrap: the emitted lines, joined with
single spaces, carry exactly the words of the concatenated span
text (provided no word exceeds the clamped width). -/
theorem wrapCore_words (spans : List StyledSpan) (width : Nat)
    (hw : ∀ w ∈ words (concatText spans), w.length ≤ max 1 width) :
    words (joinLines ((wrapCore spans width).map lineText)) =
      words (concatText spans) := by
  unfold wrapCore
  by_cases hp : concatText spans = []
  · rw [if_pos hp, hp]
    rfl
  · rw [if_neg hp]
    have hfind : FindableFrom (concatText spans) 0
        (greedyWrap width (concatText spans)) := by
      have := greedy_findable width (concatText spans)
        ((concatText spans).length) 0 (by omega)
      simpa using this
    rw [wrapMapGo_texts _ _ (byteStyles_length spans) _ 0 hfind]
    exact greedy_words width ((concatText spans).length) _ (le_refl _) hw

/-- A group whose core wrap is empty has no words. -/
theorem wrapCore_nil_words (spans : List StyledSpan) (width : Nat)
    (h : wrapCore spans width = []) : words (concatText spans) = [] := by
  unfold wrapCore at h
  by_cases hp : concatText spans = []
  · rw [hp]
    exact words_nil
  · rw [if_neg hp] at h
    cases hg : greedyWrap width (concatText spans) with
    | nil =>
      cases hd : (concatText spans).dropWhile isSp with
      | nil =>
        rw [← words_dropWhile_sp, hd]
        exact words_nil
      | cons x xs =>
        rw [greedyWrap_cons_of width _ _ hd (by simp)] at hg
        simp at hg
    | cons g gs =>
      rw [hg] at h
      simp [wrapMapGo] at h

/-- Joining an append of two non-empty line lists inserts a single
space at the seam. -/
theorem joinLines_append (x y : List (List Char)) (hx : x ≠ []) (hy : y ≠ []) :
    joinLines (x ++ y) = joinLines x ++ ' ' :: joinLines y := by
  induction x with
  | nil => exact absurd rfl hx
  | cons l ls ih =>
    cases ls with
    | nil =>
      cases y with
      | nil => exact absurd rfl hy
      | cons y0 ys => rfl
    | cons l2 ls2 =>
      have hih := ih (by simp)
      have h1 : joinLines ((l :: l2 :: ls2) ++ y) =
          l ++ ' ' :: joinLines ((l2 :: ls2) ++ y) := rfl
      have h2 : joinLines (l :: l2 :: ls2) = l ++ ' ' :: joinLines (l2 :: ls2) := rfl
      rw [h1, hih, h2]
      simp

/-- Splitting `words` of a joined flattening into per-chunk words. -/
theorem words_joinLines_flatten (xs : List (List (List Char)))
    (hne : ∀ x ∈ xs, x ≠ []) :
    words (joinLines xs.flatten) =
      (xs.map (fun x => words (joinLines x))).flatten := by
  induction xs with
  | nil =>
    simp only [List.flatten_nil, List.map_nil]
    exact words_nil
  | cons x xs ih =>
    have hx : x ≠ [] := hne x (List.mem_cons_self x xs)
    by_cases hxe : xs = []
    · subst hxe
      simp
    · have hfne : xs.flatten ≠ [] := by
        cases xs with
        | nil => exact absurd rfl hxe
        | cons y ys =>
          have hy : y ≠ [] := hne y (List.mem_cons_of_mem x (List.mem_cons_self y ys))
          simp only [List.flatten_cons]
          cases y with
          | nil => exact absurd rfl hy
          | cons a l => simp
      rw [List.flatten_cons, joinLines_append x xs.flatten hx hfne]
      rw [words_append_sp _ _ (Or.inr ⟨' ', joinLines xs.flatten, rfl, by decide⟩)]
      rw [words_sp_cons _ _ (by decide)]
      rw [ih (fun z hz => hne z (List.mem_cons_of_mem x hz))]
      simp

/-- Word preservation of the per-group emission: a group that wraps to
nothing contributes a blank line whose words are exactly the group's
(empty) words; any other group wraps word-preservingly. -/
theorem wrapOrBlank_words (g : List StyledSpan) (width : Nat)
    (hw : ∀ w ∈ words (concatText g), w.length ≤ max 1 width) :
    words (joinLines ((wrapOrBlank g width).map lineText)) =
      words (concatText g) := by
  unfold wrapOrBlank
  by_cases hc : wrapCore g width = []
  · rw [if_pos hc, wrapCore_nil_words g width hc]
    exact words_nil
  · rw [if_neg hc]
    exact wrapCore_words g width hw

/-- Splitting at newlines always yields at least one segment. -/
theorem splitOnNl_ne_nil (s : List Char) : splitOnNl s ≠ [] := by
  cases s with
  | nil => simp [splitOnNl]
  | cons c cs =>
    by_cases hc : c = '\n'
    · simp [splitOnNl, hc]
    · simp only [splitOnNl, hc, if_false]
      cases hsp : splitOnNl cs <;> simp

/-- `concatText` distributes over appends. -/
theorem concatText_append (xs ys : List StyledSpan) :
    concatText (xs ++ ys) = concatText xs ++ concatText ys := by
  simp [concatText]

/-- Joining the newline split recovers the original text. -/
theorem joinNl_splitOnNl (s : List Char) : joinNl (splitOnNl s) = s := by
  induction s with
  | nil => rfl
  | cons c cs ih =>
    by_cases hc : c = '\n'
    · subst hc
      have h1 : splitOnNl ('\n' :: cs) = [] :: splitOnNl cs := by
        simp [splitOnNl]
      rw [h1]
      cases hsp : splitOnNl cs with
      | nil => exact absurd hsp (splitOnNl_ne_nil cs)
      | cons g gs =>
        rw [hsp] at ih
        have h2 : joinNl ([] :: g :: gs) = '\n' :: joinNl (g :: gs) := rfl
        rw [h2, ih]
    · cases hsp : splitOnNl cs with
      | nil => exact absurd hsp (splitOnNl_ne_nil cs)
      | cons g gs =>
        have h1 : splitOnNl (c :: cs) = (c :: g) :: gs := by
          simp [splitOnNl, hc, hsp]
        rw [h1]
        rw [hsp] at ih
        cases gs with
        | nil =>
          have h2 : joinNl [g] = g := rfl
          rw [h2] at ih
          have h3 : joinNl [c :: g] = c :: g := rfl
          rw [h3, ih]
        | cons g2 gs2 =>
          have h2 : joinNl ((c :: g) :: g2 :: gs2) =
              (c :: g) ++ '\n' :: joinNl (g2 :: gs2) := rfl
          have h3 : joinNl (g :: g2 :: gs2) = g ++ '\n' :: joinNl (g2 :: gs2) := rfl
          rw [h3] at ih
          rw [h2, List.cons_append, ih]

/-- Word accounting of the part-processing loop: the words of the
emitted groups followed by the words of the final accumulator (with
any continuation) are exactly the words of the incoming accumulator
followed by the newline-joined parts and the continuation. -/
theorem splitParts_words (st : Style) :
    ∀ (ps : List (List Char)) (acc : List StyledSpan) (k : List Char), ps ≠ [] →
      ((splitParts st acc ps).1.map (fun g => words (concatText g))).flatten ++
          words (concatText (splitParts st acc ps).2 ++ k) =
        words (concatText acc ++ joinNl ps ++ k) := by
  intro ps
  induction ps with
  | nil => intro _ _ h; exact absurd rfl h
  | cons p ps ih =>
    intro acc k _
    cases ps with
    | nil =>
      by_cases hp : p = []
      · simp [splitParts, hp, joinNl]
      · simp only [splitParts, hp, if_false]
        simp [concatText_append, concatText, joinNl]
    | cons p2 ps2 =>
      have hih := ih [] k (by simp)
      have hsp : splitParts st acc (p :: p2 :: ps2) =
          ((if p = [] then acc else acc ++ [⟨p, st⟩]) ::
              (splitParts st [] (p2 :: ps2)).1,
            (splitParts st [] (p2 :: ps2)).2) := rfl
      have hjn : joinNl (p :: p2 :: ps2) = p ++ '\n' :: joinNl (p2 :: ps2) := rfl
      rw [hsp, hjn]
      simp only [List.map_cons, List.flatten_cons, List.append_assoc]
      rw [hih]
      have hacc : concatText (if p = [] then acc else acc ++ [⟨p, st⟩]) =
          concatText acc ++ p := by
        by_cases hp : p = []
        · simp [hp]
        · simp [hp, concatText_append, concatText]
      rw [hacc]
      have hcnil : concatText ([] : List StyledSpan) = [] := rfl
      rw [hcnil]
      simp only [List.nil_append]
      rw [← words_sp_cons '\n' (joinNl (p2 :: ps2) ++ k) (by decide)]
      rw [← words_append_sp (concatText acc ++ p)
        ('\n' :: (joinNl (p2 :: ps2) ++ k))
        (Or.inr ⟨'\n', joinNl (p2 :: ps2) ++ k, rfl, by decide⟩)]
      congr 1
      simp

/-- Word accounting of the group-splitting loop: the words of all
groups, concatenated, are the words of the accumulator followed by the
remaining spans. -/
theorem splitGroupsGo_words :
    ∀ (spans acc : List StyledSpan),
      ((splitGroupsGo acc spans).map (fun g => words (concatText g))).flatten =
        words (concatText acc ++ concatText spans) := by
  intro spans
  induction spans with
  | nil =>
    intro acc
    by_cases ha : acc = []
    · subst ha
      simp only [splitGroupsGo, if_pos]
      have : concatText ([] : List StyledSpan) = [] := rfl
      simp [this, words_nil]
    · simp only [splitGroupsGo, if_neg ha]
      simp [concatText]
  | cons sp rest ih =>
    intro acc
    by_cases hnl : '\n' ∈ sp.text
    · have hgo : splitGroupsGo acc (sp :: rest) =
          (splitParts sp.style acc (splitOnNl sp.text)).1 ++
            splitGroupsGo (splitParts sp.style acc (splitOnNl sp.text)).2 rest := by
        simp only [splitGroupsGo, if_pos hnl]
      rw [hgo, List.map_append, List.flatten_append, ih]
      have hsp := splitParts_words sp.style (splitOnNl sp.text) acc
        (concatText rest) (splitOnNl_ne_nil _)
      rw [joinNl_splitOnNl] at hsp
      rw [hsp]
      have : concatText (sp :: rest) = sp.text ++ concatText rest := by
        simp [concatText]
      rw [this]
      simp
    · have hgo : splitGroupsGo acc (sp :: rest) = splitGroupsGo (acc ++ [sp]) rest := by
        simp only [splitGroupsGo, if_neg hnl]
      rw [hgo, ih, concatText_append]
      have h1 : concatText [sp] = sp.text := by simp [concatText]
      have h2 : concatText (sp :: rest) = sp.text ++ concatText rest := by
        simp [concatText]
      rw [h1, h2]
      simp

/-- C1 counterexample: at width 1, the single word "ab" is broken by
the wrap (a word longer than the width is still broken, spec §4.2), so
reading line breaks as spaces yields the words "a", "b" instead of the
original word "ab": the claim as stated fails. -/
theorem c1_long_word_counterexample :
    ¬ (words (outText [⟨['a', 'b'], Style.default⟩] 1) =
        words (concatText [⟨['a', 'b'], Style.default⟩])) := by
  have h1 : words (outText [⟨['a', 'b'], Style.default⟩] 1) = [['a'], ['b']] := by
    simp [outText, wrap_styled_spans, wrapCore, concatText, byteStyles, greedyWrap,
      lineLen, firstWordLen, extendLine, gapLen, nextWordLen, isSp,
      Char.isWhitespace, wrapMapGo, advance, List.isPrefixOf,
      build_spans_for_range, groupRuns, joinLines, lineText, words]
  have h2 : words (concatText [⟨['a', 'b'], Style.default⟩]) = [['a', 'b']] := by
    simp [concatText, words, isSp, Char.isWhitespace]
  rw [h1, h2]
  simp

/-- C1 (amended): for every width at least 1 and every span list in
which no whitespace-delimited word is longer than the width,
concatenating the text of all lines produced by `wrap_styled_spans`
(reading the break between consecutive lines as a single space)
reproduces exactly the words of the concatenated span text — none
lost, none duplicated, in order. -/
theorem c1_word_preserving_wrap (spans : List StyledSpan) (width : Nat)
    (_hW : 1 ≤ width)
    (hw : ∀ w ∈ words (concatText spans), w.length ≤ width) :
    words (outText spans width) = words (concatText spans) := by
  have hw' : ∀ w ∈ words (concatText spans), w.length ≤ max 1 width :=
    fun w h => le_trans (hw w h) (le_max_right 1 width)
  unfold outText wrap_styled_spans
  by_cases hsp : spans = []
  · subst hsp
    rw [if_pos rfl]
    rfl
  · rw [if_neg hsp]
    by_cases hnl : spans.any (fun sp => '\n' ∈ sp.text) = true
    · rw [if_pos hnl]
      unfold wrap_with_hard_breaks
      rw [List.map_flatten, List.map_map]
      have hne : ∀ x ∈ (splitGroups spans).map
          (List.map lineText ∘ fun g => wrapOrBlank g width), x ≠ [] := by
        intro x hx
        obtain ⟨g, _, rfl⟩ := List.mem_map.mp hx
        intro hxe
        simp only [Function.comp] at hxe
        exact wrapOrBlank_ne_nil g width (by simpa using hxe)
      rw [words_joinLines_flatten _ hne]
      rw [List.map_map]
      have hG := splitGroupsGo_words spans []
      have hcnil : concatText ([] : List StyledSpan) = [] := rfl
      rw [hcnil, List.nil_append] at hG
      have hG' : ((splitGroups spans).map (fun g => words (concatText g))).flatten =
          words (concatText spans) := hG
      have hmapeq : (splitGroups spans).map
            ((fun x => words (joinLines x)) ∘
              (List.map lineText ∘ fun g => wrapOrBlank g width)) =
          (splitGroups spans).map (fun g => words (concatText g)) := by
        apply List.map_congr_left
        intro g hg
        simp only [Function.comp]
        apply wrapOrBlank_words
        intro w hwmem
        apply hw'
        rw [← hG']
        exact List.mem_flatten.mpr
          ⟨words (concatText g), List.mem_map_of_mem _ hg, hwmem⟩
      rw [hmapeq, hG']
    · rw [if_neg hnl]
      exact wrapCore_words spans width hw'

/-- Witness for C1 (amended) at the concrete paragraph "aa bb" wrapped
to width 3: both words fit the width and both survive the wrap. -/
theorem c1_word_preserving_wrap_witness :
    1 ≤ 3 ∧
    (∀ w ∈ words (concatText [⟨['a', 'a', ' ', 'b', 'b'], Style.default⟩]),
      w.length ≤ 3) ∧
    words (outText [⟨['a', 'a', ' ', 'b', 'b'], Style.default⟩] 3) =
      words (concatText [⟨['a', 'a', ' ', 'b', 'b'], Style.default⟩]) := by
  have hwds : words (concatText [⟨['a', 'a', ' ', 'b', 'b'], Style.default⟩]) =
      [['a', 'a'], ['b', 'b']] := by
    simp [concatText, words, isSp, Char.isWhitespace]
  have hlen : ∀ w ∈ words (concatText [⟨['a', 'a', ' ', 'b', 'b'], Style.default⟩]),
      w.length ≤ 3 := by
    rw [hwds]
    intro w hw
    simp only [List.mem_cons, List.not_mem_nil, or_false] at hw
    rcases hw with rfl | rfl <;> simp
  exact ⟨by norm_num, hlen,
    c1_word_preserving_wrap [⟨['a', 'a', ' ', 'b', 'b'], Style.default⟩] 3
      (by norm_num) hlen⟩
